import Mathlib

/-!
Shallow embedding of the huawei-import batch importer (src/main.rs).

Numeric values are modelled as exact rationals (`ℚ`): every decimal literal
the claims exercise is exactly representable, and the derivation formulas are
plain subtractions.  Rust's `f64` parser additionally accepts
`inf`/`infinity`/`NaN` literals, which have no rational value and are outside
the scope of every claim; the model covers the finite decimal literals.
Arithmetic inside definitions is carried out on numerators and denominators
with `mkRat` so that terms evaluate by kernel reduction; the lemmas
`f64sub_eq` and `decValue_eq` relate these computations to the ordinary `ℚ`
operations.
-/

/-- Value of a list of ASCII digit characters read in base 10. -/
def digitsVal (ds : List Char) : ℕ :=
  ds.foldl (fun a c => 10 * a + (c.toNat - 48)) 0

/-- Exponent part of a decimal float literal: optional sign then digits
(the part after `e`/`E` in Rust's `f64` grammar). -/
def parseExpPart (cs : List Char) : Option Int :=
  let p : Int × List Char :=
    match cs with
    | '+' :: t => (1, t)
    | '-' :: t => (-1, t)
    | t => (1, t)
  if p.2 ≠ [] ∧ p.2.all Char.isDigit then some (p.1 * digitsVal p.2) else none

/-- Exact rational value of the decimal literal with sign `sgn`, integer
digits `ip`, fraction digits `fp` and exponent `e`:
`sgn * (ip.fp) * 10 ^ e`, computed on numerator and denominator. -/
def decValue (sgn : Int) (ip fp : List Char) (e : Int) : ℚ :=
  let m : Int := sgn * (digitsVal ip * 10 ^ fp.length + digitsVal fp)
  if 0 ≤ e then mkRat (m * 10 ^ e.toNat) (10 ^ fp.length)
  else mkRat m (10 ^ (fp.length + (-e).toNat))

/-- Rust's `str::parse::<f64>()` on finite decimal literals, landing in `ℚ`:
optional sign, then digits with an optional fractional part and an optional
`e`/`E` exponent; at least one mantissa digit is required. -/
def parseF64 (s : String) : Option ℚ :=
  let p : Int × List Char :=
    match s.data with
    | '+' :: t => (1, t)
    | '-' :: t => (-1, t)
    | t => (1, t)
  let sgn := p.1
  let ip := p.2.takeWhile Char.isDigit
  let rest := p.2.dropWhile Char.isDigit
  match rest with
  | [] => if ip = [] then none else some (decValue sgn ip [] 0)
  | '.' :: rest2 =>
    let fp := rest2.takeWhile Char.isDigit
    let rest3 := rest2.dropWhile Char.isDigit
    if ip = [] ∧ fp = [] then none
    else
      match rest3 with
      | [] => some (decValue sgn ip fp 0)
      | 'e' :: t => (parseExpPart t).map fun e => decValue sgn ip fp e
      | 'E' :: t => (parseExpPart t).map fun e => decValue sgn ip fp e
      | _ => none
  | 'e' :: t =>
    if ip = [] then none else (parseExpPart t).map fun e => decValue sgn ip [] e
  | 'E' :: t =>
    if ip = [] then none else (parseExpPart t).map fun e => decValue sgn ip [] e
  | _ => none

/-- Model of `StringOrDash::as_f64`: the placeholder `"--"` is absent; any other
string is run through the `f64` parser, a parse failure yielding `none`. -/
def as_f64 (s : String) : Option ℚ :=
  if s = "--" then none else parseF64 s

/-- The `f64` subtraction used by the derivation formulas, computed on
numerators and denominators; `f64sub_eq` shows it is subtraction on `ℚ`. -/
def f64sub (a b : ℚ) : ℚ :=
  mkRat (a.num * b.den - b.num * a.den) (a.den * b.den)

/-- Rust's `str::split('.')` on the character list of a string: splitting an
empty string yields one empty token. -/
def splitOnChar (sep : Char) : List Char → List (List Char)
  | [] => [[]]
  | c :: rest =>
    match splitOnChar sep rest with
    | [] => [[]]
    | t :: ts => if c = sep then [] :: t :: ts else (c :: t) :: ts

/-- Rust's `str::parse::<i32>()`: optional sign, nonempty ASCII digits, value within
the 32-bit signed range. -/
def rustParseI32 (cs : List Char) : Option Int :=
  let p : Int × List Char :=
    match cs with
    | c :: t => if c = '+' then (1, t) else if c = '-' then (-1, t) else (1, c :: t)
    | [] => (1, [])
  if p.2 ≠ [] ∧ p.2.all Char.isDigit then
    let v : Int := p.1 * digitsVal p.2
    if -2147483648 ≤ v ∧ v ≤ 2147483647 then some v else none
  else none

/-- Rust's `str::parse::<u32>()`: optional `+`, nonempty ASCII digits, value within
the 32-bit unsigned range. -/
def rustParseU32 (cs : List Char) : Option Nat :=
  let ds : List Char :=
    match cs with
    | c :: t => if c = '+' then t else c :: t
    | [] => []
  if ds ≠ [] ∧ ds.all Char.isDigit then
    let v := digitsVal ds
    if v ≤ 4294967295 then some v else none
  else none

/-- Modelled from the spec: the signed-integer grammar with unrestricted
range ("year, unrestricted range"), for comparison with `rustParseI32`. -/
def specParseInt (cs : List Char) : Option Int :=
  let p : Int × List Char :=
    match cs with
    | c :: t => if c = '+' then (1, t) else if c = '-' then (-1, t) else (1, c :: t)
    | [] => (1, [])
  if p.2 ≠ [] ∧ p.2.all Char.isDigit then some (p.1 * digitsVal p.2) else none

/-- The resolver `parse_filename` on the file stem (base name without the `.json`
extension): split on `'.'`, require exactly two tokens, parse year as `i32`,
month as `u32`, and require `1 ≤ month ≤ 12`. -/
def parse_filename (stem : String) : Option (Int × Nat) :=
  match splitOnChar '.' stem.data with
  | [y, m] =>
    (rustParseI32 y).bind fun year =>
      (rustParseU32 m).bind fun month =>
        if 1 ≤ month ∧ month ≤ 12 then some (year, month) else none
  | _ => none

/-- Proleptic Gregorian leap-year rule, as used by chrono. -/
def isLeapYear (y : Int) : Bool :=
  y % 4 == 0 && (y % 100 != 0 || y % 400 == 0)

/-- Number of days of month `m` (1–12) of year `y`; 0 for an invalid month. -/
def daysInMonth (y : Int) (m : Nat) : Nat :=
  match m with
  | 1 => 31
  | 2 => if isLeapYear y then 29 else 28
  | 3 => 31
  | 4 => 30
  | 5 => 31
  | 6 => 30
  | 7 => 31
  | 8 => 31
  | 9 => 30
  | 10 => 31
  | 11 => 30
  | 12 => 31
  | _ => 0

/-- A calendar date, the model of `chrono::NaiveDate`. -/
structure Date where
  year : Int
  month : Nat
  day : Nat
deriving DecidableEq, Repr

/-- Model of `NaiveDate::from_ymd_opt`: `some` exactly on valid proleptic Gregorian
dates within chrono's representable year range. -/
def fromYmdOpt (y : Int) (m d : Nat) : Option Date :=
  if -262144 ≤ y ∧ y ≤ 262143 ∧ 1 ≤ m ∧ m ≤ 12 ∧ 1 ≤ d ∧ d ≤ daysInMonth y m then
    some ⟨y, m, d⟩
  else none

/-- Chronological order on dates. -/
def dateLe (a b : Date) : Prop :=
  a.year < b.year ∨
    (a.year = b.year ∧ (a.month < b.month ∨ (a.month = b.month ∧ a.day ≤ b.day)))

/-- One derived time-series row (struct `Row` in the source). -/
structure Row where
  bucket : Date
  source : String
  measurement : String
  value : ℚ
deriving DecidableEq, Repr

/-- The decoded JSON payload: the three string arrays under `data`. -/
structure HuaweiData where
  product_power : List String
  use_power : List String
  self_use_power : List String
deriving DecidableEq, Repr

/-- The length `product_power.len().min(use_power.len()).min(self_use_power.len())`. -/
def minLen (d : HuaweiData) : Nat :=
  (d.product_power.length.min d.use_power.length).min d.self_use_power.length

/-- MetricDeriver body: the three conditional `rows.push` statements of
`extract_rows` for one valid date, in source order. -/
def deriveRows (date : Date) (prod usage selfUse : Option ℚ) : List Row :=
  let rows : List Row := []
  let rows :=
    match prod with
    | some pv => rows ++ [⟨date, "solar_meter", "accumulated_solar_energy", pv⟩]
    | none => rows
  let rows :=
    match prod, selfUse with
    | some pv, some sv => rows ++ [⟨date, "energy_meter", "active_energy_exported", f64sub pv sv⟩]
    | _, _ => rows
  match usage, selfUse with
  | some uv, some sv => rows ++ [⟨date, "energy_meter", "active_energy_imported", f64sub uv sv⟩]
  | _, _ => rows

/-- One iteration of the `for i in 0..len` loop of `extract_rows`: build the
date (skipping the index when invalid), parse the three entries, derive rows. -/
def rowsForIndex (year : Int) (month : Nat) (data : HuaweiData) (i : Nat) : List Row :=
  match fromYmdOpt year month (i + 1) with
  | none => []
  | some date =>
    deriveRows date (as_f64 (data.product_power.getD i ""))
      (as_f64 (data.use_power.getD i "")) (as_f64 (data.self_use_power.getD i ""))

/-- The core of `extract_rows` after JSON decoding: iterate the indices below the
shortest array length, concatenating each index's rows. -/
def extract_rows (year : Int) (month : Nat) (data : HuaweiData) : List Row :=
  (List.range (minLen data)).flatMap (rowsForIndex year month data)

/-- The conflict key of a row: the store's uniqueness constraint is over
(time bucket, source, measurement). -/
def rowKey (r : Row) : Date × String × String :=
  (r.bucket, r.source, r.measurement)

/-- One `INSERT ... ON CONFLICT DO NOTHING`: a row whose key is already
present leaves the store untouched, otherwise the row is appended. -/
def insertSkip (store : List Row) (r : Row) : List Row :=
  if store.any fun x => rowKey x == rowKey r then store else store ++ [r]

/-- The insertion loop of `main`: execute the prepared statement for each
row in order inside the transaction, counting submitted rows; the first
failing row aborts with that row. -/
def persistGo (fails : Row → Bool) :
    List Row → List Row → Nat → Except Row (List Row × Nat)
  | [], tx, count => .ok (tx, count)
  | r :: rest, tx, count =>
    if fails r then .error r else persistGo fails rest (insertSkip tx r) (count + 1)

/-- The whole persist step: run the batch inside one transaction; on success
the transaction commits and the new store state becomes visible, on the
first row failure the transaction is dropped and the store keeps its
previous state (rollback). `fails` is the oracle for which row executions
the store refuses. -/
def runPersist (fails : Row → Bool) (store rows : List Row) :
    List Row × Except Row Nat :=
  match persistGo fails rows store 0 with
  | .ok (tx, n) => (tx, .ok n)
  | .error r => (store, .error r)

/-- Pipeline-level load errors of `main` after extraction. -/
inductive LoadError
  | missingDbUrl
  | rowFailed (r : Row)
deriving DecidableEq, Repr

/-- Fuelled accumulator loop behind `natToDigits`. -/
def natToDigitsGo : Nat → Nat → List Char → List Char
  | 0, _, acc => acc
  | fuel + 1, n, acc =>
    if n < 10 then Char.ofNat (48 + n) :: acc
    else natToDigitsGo fuel (n / 10) (Char.ofNat (48 + n % 10) :: acc)

/-- Digits of a natural number, most significant first. -/
def natToDigits (n : Nat) : List Char :=
  natToDigitsGo (n + 1) n []

/-- Left-pad a digit list with `'0'` to width `w`. -/
def pad0 (w : Nat) (s : List Char) : List Char :=
  List.replicate (w - s.length) '0' ++ s

/-- Rust's `{:<w}` formatting: right-pad with spaces to width `w`. -/
def padRight (w : Nat) (s : String) : String :=
  s ++ String.mk (List.replicate (w - s.length) ' ')

/-- Rust's `{:>w}` formatting: left-pad with spaces to width `w`. -/
def padLeft (w : Nat) (s : String) : String :=
  String.mk (List.replicate (w - s.length) ' ') ++ s

/-- chrono's `NaiveDate` display, `YYYY-MM-DD`: the year zero-padded to four
digits, with a sign for years outside `0..=9999`. -/
def showDate (d : Date) : String :=
  let y := d.year
  let ys : List Char :=
    if y < 0 then '-' :: pad0 4 (natToDigits (-y).toNat)
    else if y ≤ 9999 then pad0 4 (natToDigits y.toNat)
    else '+' :: natToDigits y.toNat
  String.mk (ys ++ '-' :: pad0 2 (natToDigits d.month) ++ '-' :: pad0 2 (natToDigits d.day))

/-- Round to the nearest multiple of `1/100`, ties to even, returning the
numerator over 100: the rounding behind `{:.2}` formatting. -/
def roundCenti (q : ℚ) : Int :=
  let a := q.num * 100
  let d := (q.den : Int)
  let fl := a.fdiv d
  let r := a - d * fl
  if 2 * r < d then fl else if d < 2 * r then fl + 1 else if fl % 2 = 0 then fl else fl + 1

/-- Rust's `{:.2}` formatting: the value with exactly two fraction digits. -/
def format2 (q : ℚ) : String :=
  let n := roundCenti q
  let sign : List Char := if n < 0 then ['-'] else []
  let a := n.natAbs
  String.mk (sign ++ natToDigits (a / 100) ++ '.' :: pad0 2 (natToDigits (a % 100)))

/-- One line of the dry-run report:
`"{:<12} {:<15} {:<30} {:>10.2}"` over bucket, source, measurement, value.
The bucket is a `chrono::NaiveDate`, whose `Display` writes its digits
directly to the formatter without calling `Formatter::pad`, so the `{:<12}`
width flag is ignored and the date appears unpadded; the `&str` columns and
the `f64` value do honour their width flags. -/
def renderRow (r : Row) : String :=
  showDate r.bucket ++ " " ++ padRight 15 r.source ++ " " ++
    padRight 30 r.measurement ++ " " ++ padLeft 10 (format2 r.value)

/-- The dry-run report: header line, 70-dash separator, one line per row. -/
def reportLines (rows : List Row) : List String :=
  (padRight 12 "bucket" ++ " " ++ padRight 15 "source" ++ " " ++
      padRight 30 "measurement" ++ " " ++ padLeft 10 "value")
    :: String.mk (List.replicate 70 '-')
    :: rows.map renderRow

/-- Observable outcome of the batch-dispatch part of `main`. -/
structure BatchOutcome where
  output : List String
  store : List Row
  contacted : Bool
  result : Except LoadError Unit
  inserted : Option Nat
deriving Repr

/-- Dispatch of `main` after row aggregation: dry-run prints the report and returns
without touching the store; otherwise a connection string is required and
the batch runs through `runPersist` in one transaction. -/
def runBatch (dryRun : Bool) (dbUrl : Option String) (fails : Row → Bool)
    (store rows : List Row) : BatchOutcome :=
  if dryRun then
    { output := reportLines rows, store := store, contacted := false,
      result := .ok (), inserted := none }
  else
    match dbUrl with
    | none =>
      { output := [], store := store, contacted := false,
        result := .error .missingDbUrl, inserted := none }
    | some _ =>
      match runPersist fails store rows with
      | (s, .ok n) =>
        { output := [], store := s, contacted := true,
          result := .ok (), inserted := some n }
      | (s, .error r) =>
        { output := [], store := s, contacted := true,
          result := .error (.rowFailed r), inserted := none }

/-- The per-file loop of `main`: each file's extraction either contributes
its rows to the accumulator or is reported as one file-level error, and the
loop always runs to completion. -/
def processFiles (files : List (String × Except String (List Row))) :
    List Row × List (String × String) :=
  files.foldl
    (fun acc f =>
      match f.2 with
      | .ok rows => (acc.1 ++ rows, acc.2)
      | .error e => (acc.1, acc.2 ++ [(f.1, e)]))
    ([], [])

/-- The helper `f64sub` is subtraction on `ℚ`. -/
theorem f64sub_eq (a b : ℚ) : f64sub a b = a - b :=
  (Rat.sub_def' a b).symm

/-- The numerator/denominator computation of `decValue` is the textbook
value of the decimal literal: `sign * (intpart.fracpart) * 10 ^ exponent`. -/
theorem decValue_eq (sgn : Int) (ip fp : List Char) (e : Int) :
    decValue sgn ip fp e =
      (sgn : ℚ) * ((digitsVal ip : ℚ) + (digitsVal fp : ℚ) / (10 : ℚ) ^ fp.length) *
        (10 : ℚ) ^ e := by
  unfold decValue
  have hden : ((10 : ℚ) ^ fp.length) ≠ 0 := by positivity
  split_ifs with he
  · have h1 : (10 : ℚ) ^ e = (10 : ℚ) ^ (e.toNat : ℤ) := by
      rw [Int.toNat_of_nonneg he]
    rw [Rat.mkRat_eq_div, h1, zpow_natCast]
    push_cast
    field_simp
  · have he' : (0 : ℤ) ≤ -e := by omega
    have h1 : (10 : ℚ) ^ e = ((10 : ℚ) ^ ((-e).toNat))⁻¹ := by
      conv_lhs => rw [show e = -(-e) by ring]
      rw [zpow_neg, ← zpow_natCast, Int.toNat_of_nonneg he']
    rw [Rat.mkRat_eq_div, h1]
    push_cast [pow_add]
    field_simp

example : as_f64 "--" = none := by decide
example : as_f64 "abc" = none := by decide
example : as_f64 "10" = some 10 := by decide
example : as_f64 "-2.5" = some (mkRat (-25) 10) := by decide
example : as_f64 "1.5e2" = some 150 := by decide
example : parse_filename "2023.01" = some (2023, 1) := by decide
example : parse_filename "2023" = none := by decide
example : parse_filename "2023.13" = none := by decide
example : fromYmdOpt 2023 2 29 = none := by decide
example : fromYmdOpt 2024 2 29 = some ⟨2024, 2, 29⟩ := by decide
example :
    extract_rows 2023 1 ⟨["10", "--", "5"], ["8", "6", "4"], ["2", "1", "3"]⟩ =
      [⟨⟨2023, 1, 1⟩, "solar_meter", "accumulated_solar_energy", 10⟩,
       ⟨⟨2023, 1, 1⟩, "energy_meter", "active_energy_exported", 8⟩,
       ⟨⟨2023, 1, 1⟩, "energy_meter", "active_energy_imported", 6⟩,
       ⟨⟨2023, 1, 2⟩, "energy_meter", "active_energy_imported", 5⟩,
       ⟨⟨2023, 1, 3⟩, "solar_meter", "accumulated_solar_energy", 5⟩,
       ⟨⟨2023, 1, 3⟩, "energy_meter", "active_energy_exported", 2⟩,
       ⟨⟨2023, 1, 3⟩, "energy_meter", "active_energy_imported", 1⟩] := by decide
example :
    renderRow ⟨⟨2023, 1, 1⟩, "solar_meter", "accumulated_solar_energy", 10⟩ =
      "2023-01-01 solar_meter     accumulated_solar_energy            10.00" := by decide
example : format2 (mkRat (-5) 10) = "-0.50" := by decide

/-- A successful `fromYmdOpt` returns exactly the requested triple, and the
day is within the month. -/
theorem fromYmdOpt_eq_some {y : ℤ} {m d : ℕ} {date : Date}
    (h : fromYmdOpt y m d = some date) :
    date = ⟨y, m, d⟩ ∧ 1 ≤ m ∧ m ≤ 12 ∧ 1 ≤ d ∧ d ≤ daysInMonth y m := by
  rw [fromYmdOpt] at h
  split at h
  · cases h
    rename_i hc
    exact ⟨rfl, hc.2.2.1, hc.2.2.2.1, hc.2.2.2.2.1, hc.2.2.2.2.2⟩
  · cases h

/-- The rows of one index depend on the arrays only through the parsed
values at that index. -/
theorem rowsForIndex_congr {y : ℤ} {m : ℕ} {d d' : HuaweiData} {i : ℕ}
    (h1 : as_f64 (d.product_power.getD i "") = as_f64 (d'.product_power.getD i ""))
    (h2 : as_f64 (d.use_power.getD i "") = as_f64 (d'.use_power.getD i ""))
    (h3 : as_f64 (d.self_use_power.getD i "") = as_f64 (d'.self_use_power.getD i "")) :
    rowsForIndex y m d i = rowsForIndex y m d' i := by
  unfold rowsForIndex
  cases hD : fromYmdOpt y m (i + 1) with
  | none => simp only [hD]
  | some date =>
    simp only [hD]
    rw [h1, h2, h3]

/-- Congruence for `flatMap` over an index range. -/
theorem range_flatMap_congr {f g : ℕ → List Row} {n : ℕ} (h : ∀ i < n, f i = g i) :
    (List.range n).flatMap f = (List.range n).flatMap g := by
  induction n with
  | zero => rfl
  | succ k ih =>
    rw [List.range_succ, List.flatMap_append, List.flatMap_append,
      ih fun i hi => h i (Nat.lt_succ_of_lt hi)]
    simp [h k (Nat.lt_succ_self k)]

/-- The function `extract_rows` depends on the arrays only through the shortest length
and the parsed values at the considered indices. -/
theorem extract_rows_eq_of {y : ℤ} {m : ℕ} {d d' : HuaweiData}
    (hlen : minLen d = minLen d')
    (h : ∀ j < minLen d,
      as_f64 (d.product_power.getD j "") = as_f64 (d'.product_power.getD j "") ∧
        as_f64 (d.use_power.getD j "") = as_f64 (d'.use_power.getD j "") ∧
          as_f64 (d.self_use_power.getD j "") = as_f64 (d'.self_use_power.getD j "")) :
    extract_rows y m d = extract_rows y m d' := by
  unfold extract_rows
  rw [← hlen]
  exact range_flatMap_congr fun i hi =>
    rowsForIndex_congr (h i hi).1 (h i hi).2.1 (h i hi).2.2

/-- Substituting an unparseable entry by the placeholder is invisible to
`as_f64` at every position. -/
theorem asF64_getD_set (p : List String) (i j : ℕ) (t : String)
    (ht : as_f64 t = none) :
    as_f64 ((p.set i t).getD j "") = as_f64 ((p.set i "--").getD j "") := by
  have hdash : as_f64 "--" = none := by decide
  simp only [List.getD_eq_getElem?_getD, List.getElem?_set]
  by_cases hij : i = j
  · subst hij
    by_cases hlt : i < p.length
    · simp [hlt, ht, hdash]
    · simp [hlt]
  · simp [hij]

/-- C1, counterexample: a file entry `"abc"` is neither the placeholder nor
numeric, yet extraction of the file succeeds and emits a row (no
`InvalidPayload`, not zero rows): `as_f64` swallows the parse failure. -/
theorem extract_rows_accepts_nonnumeric_token :
    as_f64 "abc" = none ∧ "abc" ≠ "--" ∧
      extract_rows 2023 1 ⟨["abc"], ["1"], ["1"]⟩ =
        [⟨⟨2023, 1, 1⟩, "energy_meter", "active_energy_imported", 0⟩] := by
  decide

/-- C1, amended: an entry that is neither the placeholder nor parseable as a
decimal number is treated exactly like the placeholder (an absent value):
the file still extracts, and the rows are those obtained with `"--"` in its
place, whichever of the three arrays holds the offending token. -/
theorem extract_rows_nonnumeric_treated_as_absent
    (y : ℤ) (m : ℕ) (p u s : List String) (i : ℕ) (t : String)
    (ht : as_f64 t = none) :
    extract_rows y m ⟨p.set i t, u, s⟩ = extract_rows y m ⟨p.set i "--", u, s⟩ ∧
      extract_rows y m ⟨p, u.set i t, s⟩ = extract_rows y m ⟨p, u.set i "--", s⟩ ∧
        extract_rows y m ⟨p, u, s.set i t⟩ = extract_rows y m ⟨p, u, s.set i "--"⟩ := by
  refine ⟨extract_rows_eq_of ?_ ?_, extract_rows_eq_of ?_ ?_, extract_rows_eq_of ?_ ?_⟩
  · simp [minLen, List.length_set]
  · exact fun j _ => ⟨asF64_getD_set p i j t ht, rfl, rfl⟩
  · simp [minLen, List.length_set]
  · exact fun j _ => ⟨rfl, asF64_getD_set u i j t ht, rfl⟩
  · simp [minLen, List.length_set]
  · exact fun j _ => ⟨rfl, rfl, asF64_getD_set s i j t ht⟩

/-- Witness for the amended C1 at a concrete input. -/
theorem extract_rows_nonnumeric_treated_as_absent_witness :
    as_f64 "abc" = none ∧
      extract_rows 2023 1 ⟨["7"].set 0 "abc", ["1"], ["1"]⟩ =
        extract_rows 2023 1 ⟨["7"].set 0 "--", ["1"], ["1"]⟩ :=
  ⟨by decide,
    (extract_rows_nonnumeric_treated_as_absent 2023 1 ["7"] ["1"] ["1"] 0 "abc"
        (by decide)).1⟩

/-- Dropping an index whose row list is empty from the iteration leaves the
concatenation unchanged. -/
theorem flatMap_filter_ne (f : ℕ → List Row) (i : ℕ) (hf : f i = [])
    (l : List ℕ) : (l.filter fun j => j != i).flatMap f = l.flatMap f := by
  induction l with
  | nil => rfl
  | cons a l ih =>
    by_cases hai : a = i
    · subst hai
      simp [List.filter_cons, List.flatMap_cons, hf, ih]
    · simp [List.filter_cons, hai, List.flatMap_cons, ih]

/-- C3: a considered index whose day `i+1` is not a valid calendar day of
the period contributes zero rows and no error; the remaining indices are
processed as if the invalid one were not there. -/
theorem extract_rows_invalid_day_skipped
    (y : ℤ) (m : ℕ) (data : HuaweiData) (i : ℕ)
    (hi : i < minLen data) (hd : fromYmdOpt y m (i + 1) = none) :
    rowsForIndex y m data i = [] ∧
      extract_rows y m data =
        ((List.range (minLen data)).filter fun j => j != i).flatMap
          (rowsForIndex y m data) := by
  have h1 : rowsForIndex y m data i = [] := by simp [rowsForIndex, hd]
  exact ⟨h1, (flatMap_filter_ne _ i h1 _).symm⟩

/-- Witness for C3: February 29 of the non-leap year 2023 (day index 28) is
skipped while the other indices still run. -/
theorem extract_rows_invalid_day_skipped_witness :
    rowsForIndex 2023 2 ⟨List.replicate 31 "5", List.replicate 31 "5", List.replicate 31 "5"⟩ 28 = [] ∧
      extract_rows 2023 2 ⟨List.replicate 31 "5", List.replicate 31 "5", List.replicate 31 "5"⟩ =
        ((List.range (minLen ⟨List.replicate 31 "5", List.replicate 31 "5", List.replicate 31 "5"⟩)).filter
            fun j => j != 28).flatMap
          (rowsForIndex 2023 2 ⟨List.replicate 31 "5", List.replicate 31 "5", List.replicate 31 "5"⟩) :=
  extract_rows_invalid_day_skipped 2023 2 _ 28 (by decide) (by decide)

/-- C4: only the positions below the shortest of the three array lengths are
considered; truncating all three arrays to that length changes nothing, so
trailing entries of the longer arrays are ignored and differing lengths are
no error. -/
theorem extract_rows_truncates_to_shortest (y : ℤ) (m : ℕ) (p u s : List String) :
    extract_rows y m ⟨p, u, s⟩ =
      extract_rows y m
        ⟨p.take (minLen ⟨p, u, s⟩), u.take (minLen ⟨p, u, s⟩),
          s.take (minLen ⟨p, u, s⟩)⟩ := by
  apply extract_rows_eq_of
  · simp only [minLen, List.length_take, Nat.min_def, inf_eq_min, min_def]
    split_ifs <;> omega
  · intro j hj
    have hj' : j < minLen ⟨p, u, s⟩ := hj
    refine ⟨?_, ?_, ?_⟩ <;>
      simp [List.getD_eq_getElem?_getD, List.getElem?_take, hj']

/-- C2: for a valid date, the emitted rows are exactly the three optional
rows of the fixed formulas, in source order — value `produced` when present,
`produced − self-consumed` when both operands are present, and
`consumed − self-consumed` when both operands are present — with genuine
`ℚ` subtraction (no clamping or rounding), each rule firing independently;
and the spec's end-to-end 2023.01 scenario yields exactly its 7 rows. -/
theorem extract_rows_derivation_rules :
    (∀ (date : Date) (prod usage selfUse : Option ℚ),
        deriveRows date prod usage selfUse =
          (match prod with
            | some pv => [⟨date, "solar_meter", "accumulated_solar_energy", pv⟩]
            | none => []) ++
            (match prod, selfUse with
              | some pv, some sv => [⟨date, "energy_meter", "active_energy_exported", pv - sv⟩]
              | _, _ => []) ++
              (match usage, selfUse with
                | some uv, some sv => [⟨date, "energy_meter", "active_energy_imported", uv - sv⟩]
                | _, _ => [])) ∧
      (∀ (y : ℤ) (m : ℕ) (data : HuaweiData) (i : ℕ) (date : Date),
          fromYmdOpt y m (i + 1) = some date →
            rowsForIndex y m data i =
              deriveRows date (as_f64 (data.product_power.getD i ""))
                (as_f64 (data.use_power.getD i ""))
                (as_f64 (data.self_use_power.getD i ""))) ∧
      extract_rows 2023 1 ⟨["10", "--", "5"], ["8", "6", "4"], ["2", "1", "3"]⟩ =
        [⟨⟨2023, 1, 1⟩, "solar_meter", "accumulated_solar_energy", 10⟩,
          ⟨⟨2023, 1, 1⟩, "energy_meter", "active_energy_exported", 8⟩,
          ⟨⟨2023, 1, 1⟩, "energy_meter", "active_energy_imported", 6⟩,
          ⟨⟨2023, 1, 2⟩, "energy_meter", "active_energy_imported", 5⟩,
          ⟨⟨2023, 1, 3⟩, "solar_meter", "accumulated_solar_energy", 5⟩,
          ⟨⟨2023, 1, 3⟩, "energy_meter", "active_energy_exported", 2⟩,
          ⟨⟨2023, 1, 3⟩, "energy_meter", "active_energy_imported", 1⟩] ∧
      deriveRows ⟨2023, 1, 1⟩ (some 10) none (some 20) =
        [⟨⟨2023, 1, 1⟩, "solar_meter", "accumulated_solar_energy", 10⟩,
          ⟨⟨2023, 1, 1⟩, "energy_meter", "active_energy_exported", -10⟩] := by
  refine ⟨?_, ?_, by decide, by decide⟩
  · intro date prod usage selfUse
    rcases prod with _ | pv <;> rcases usage with _ | uv <;> rcases selfUse with _ | sv <;>
      (delta deriveRows; simp [f64sub_eq])
  · intro y m data i date h
    simp only [rowsForIndex, h]

/-- Witness for C2's per-index rule at a concrete valid date. -/
theorem extract_rows_derivation_rules_witness :
    rowsForIndex 2023 1 ⟨["10"], ["8"], ["2"]⟩ 0 =
      deriveRows ⟨2023, 1, 1⟩
        (as_f64 ((HuaweiData.mk ["10"] ["8"] ["2"]).product_power.getD 0 ""))
        (as_f64 ((HuaweiData.mk ["10"] ["8"] ["2"]).use_power.getD 0 ""))
        (as_f64 ((HuaweiData.mk ["10"] ["8"] ["2"]).self_use_power.getD 0 "")) :=
  extract_rows_derivation_rules.2.1 2023 1 ⟨["10"], ["8"], ["2"]⟩ 0 ⟨2023, 1, 1⟩ (by decide)

/-- The parser `rustParseI32` is the unrestricted signed-integer grammar gated by the
32-bit range. -/
theorem rustParseI32_eq_spec (cs : List Char) (y : Int) :
    rustParseI32 cs = some y ↔
      specParseInt cs = some y ∧ -2147483648 ≤ y ∧ y ≤ 2147483647 := by
  simp only [rustParseI32, specParseInt]
  split_ifs with h1 h2
  · constructor
    · intro h
      cases h
      exact ⟨rfl, h2.1, h2.2⟩
    · rintro ⟨h, -, -⟩
      exact h
  · constructor
    · intro h
      cases h
    · rintro ⟨h, hlo, hhi⟩
      cases h
      exact absurd ⟨hlo, hhi⟩ h2
  · constructor
    · intro h
      cases h
    · rintro ⟨h, -, -⟩
      cases h

/-- Core of the month comparison: the `u32` digit branch against the
unbounded branch, for values within the `u32` range. -/
theorem u32_spec_core (ds : List Char) (m : ℕ) (hmle : m ≤ 4294967295) :
    (if ds ≠ [] ∧ ds.all Char.isDigit then
        if digitsVal ds ≤ 4294967295 then some (digitsVal ds) else none
      else none) = some m ↔
      (if ds ≠ [] ∧ ds.all Char.isDigit then some ((1 : ℤ) * digitsVal ds) else none) =
        some (m : ℤ) := by
  split_ifs with h hle
  · simp [Nat.cast_inj]
  · constructor
    · intro h'
      cases h'
    · intro h'
      simp only [one_mul, Option.some.injEq] at h'
      have hdm : digitsVal ds = m := by exact_mod_cast h'
      omega
  · simp

/-- A month token accepted by `u32` parsing with a value in range is exactly
one accepted by the unrestricted signed grammar with the same value. -/
theorem rustParseU32_eq_spec (cs : List Char) (m : ℕ) (h1 : 1 ≤ m)
    (hmle : m ≤ 4294967295) :
    rustParseU32 cs = some m ↔ specParseInt cs = some (m : ℤ) := by
  cases cs with
  | nil => simp [rustParseU32, specParseInt]
  | cons c t =>
    by_cases hp : c = '+'
    · subst hp
      simpa only [rustParseU32, specParseInt, if_pos rfl] using u32_spec_core t m hmle
    · by_cases hn : c = '-'
      · subst hn
        have hLHS : rustParseU32 ('-' :: t) = none := rfl
        have hRHS : specParseInt ('-' :: t) =
            if t ≠ [] ∧ t.all Char.isDigit then some (-1 * (digitsVal t : ℤ)) else none := rfl
        rw [hLHS, hRHS]
        constructor
        · intro h'
          cases h'
        · intro h'
          exfalso
          split_ifs at h' with hc
          simp only [Option.some.injEq] at h'
          omega
      · simpa only [rustParseU32, specParseInt, hp, hn, if_false] using
          u32_spec_core (c :: t) m hmle

/-- C5, counterexample: the stem `"9999999999.5"` splits into exactly two
tokens, the first parses as a signed integer (in the unrestricted grammar)
and the second is a month in range, yet the resolver rejects it: the year
must also fit a 32-bit signed integer. -/
theorem parse_filename_rejects_wide_year :
    parse_filename "9999999999.5" = none ∧
      splitOnChar '.' "9999999999.5".data = ["9999999999".data, "5".data] ∧
      specParseInt "9999999999".data = some 9999999999 ∧
      specParseInt "5".data = some 5 ∧ (1 : ℕ) ≤ 5 ∧ (5 : ℕ) ≤ 12 := by
  decide

/-- C5, amended: resolution succeeds with `(y, m)` iff the stem splits on
`'.'` into exactly two tokens, the first parses as a signed integer that
also fits 32 bits, and the second parses as an integer `m` with
`1 ≤ m ≤ 12`. -/
theorem parse_filename_characterization (stem : String) (y : Int) (m : Nat) :
    parse_filename stem = some (y, m) ↔
      ∃ t1 t2, splitOnChar '.' stem.data = [t1, t2] ∧
        specParseInt t1 = some y ∧ -2147483648 ≤ y ∧ y ≤ 2147483647 ∧
          specParseInt t2 = some (m : ℤ) ∧ 1 ≤ m ∧ m ≤ 12 := by
  cases hs : splitOnChar '.' stem.data with
  | nil => simp [parse_filename, hs]
  | cons a l =>
    cases l with
    | nil => simp [parse_filename, hs]
    | cons b l2 =>
      cases l2 with
      | cons c l3 => simp [parse_filename, hs]
      | nil =>
        constructor
        · intro h
          cases hy : rustParseI32 a with
          | none => simp [parse_filename, hs, hy] at h
          | some yr =>
            cases hu : rustParseU32 b with
            | none => simp [parse_filename, hs, hy, hu] at h
            | some mo =>
              simp only [parse_filename, hs, hy, hu, Option.some_bind] at h
              split_ifs at h with hcond
              · obtain ⟨h1', h2'⟩ : yr = y ∧ mo = m := by simpa using h
                have hyy := (rustParseI32_eq_spec a yr).mp hy
                have hmm :=
                  (rustParseU32_eq_spec b mo hcond.1
                      (le_trans hcond.2 (show (12 : ℕ) ≤ 4294967295 by norm_num))).mp hu
                rw [← h1', ← h2']
                exact ⟨a, b, rfl, hyy.1, hyy.2.1, hyy.2.2, hmm, hcond.1, hcond.2⟩
        · rintro ⟨t1, t2, heq, hy, hy1, hy2, hm', hm1, hm2⟩
          simp only [List.cons.injEq, and_true] at heq
          obtain ⟨he1, he2⟩ := heq
          rw [← he1] at hy
          rw [← he2] at hm'
          have hy' := (rustParseI32_eq_spec a y).mpr ⟨hy, hy1, hy2⟩
          have hm'' :=
            (rustParseU32_eq_spec b m hm1
                (le_trans hm2 (show (12 : ℕ) ≤ 4294967295 by norm_num))).mpr hm'
          simp [parse_filename, hs, hy', hm'', hm1, hm2]

/-- A batch in which no row fails runs to the end: the transaction buffer is
the fold of conflict-skip inserts and the count is the number of rows. -/
theorem persistGo_ok (fails : Row → Bool) :
    ∀ (rows tx : List Row) (count : Nat), (∀ r ∈ rows, fails r = false) →
      persistGo fails rows tx count = .ok (rows.foldl insertSkip tx, count + rows.length) := by
  intro rows
  induction rows with
  | nil =>
    intro tx count _
    simp [persistGo]
  | cons r rest ih =>
    intro tx count h
    have hr : fails r = false := h r (List.mem_cons_self r rest)
    have hrec := ih (insertSkip tx r) (count + 1) fun x hx => h x (List.mem_cons_of_mem r hx)
    simp [persistGo, hr, hrec, List.foldl_cons]
    omega

/-- A failing batch aborts at a row of the batch that the store refused. -/
theorem persistGo_error (fails : Row → Bool) :
    ∀ (rows tx : List Row) (count : Nat) (e : Row),
      persistGo fails rows tx count = .error e → e ∈ rows ∧ fails e = true := by
  intro rows
  induction rows with
  | nil =>
    intro tx count e h
    simp [persistGo] at h
  | cons r rest ih =>
    intro tx count e h
    by_cases hr : fails r
    · simp [persistGo, hr] at h
      exact ⟨by simp [h], h ▸ hr⟩
    · simp [persistGo, hr] at h
      obtain ⟨hm, hf⟩ := ih _ _ _ h
      exact ⟨List.mem_cons_of_mem r hm, hf⟩

/-- Conflict-skip insertion grows the store by at most the batch size, so
the reported count can exceed the rows actually written. -/
theorem length_foldl_insertSkip (rows : List Row) :
    ∀ store : List Row,
      (rows.foldl insertSkip store).length ≤ store.length + rows.length := by
  induction rows with
  | nil =>
    intro store
    simp
  | cons r rest ih =>
    intro store
    have h1 : (insertSkip store r).length ≤ store.length + 1 := by
      unfold insertSkip
      split_ifs <;> simp
    have h2 := ih (insertSkip store r)
    simp only [List.foldl_cons, List.length_cons]
    omega

/-- C6: in persist mode the whole batch runs in one transaction: when no
row fails, the store becomes the conflict-skip fold of all rows and the
reported count is the number of rows submitted (which can exceed the rows
actually written); when some row fails, the error names a failing row of
the batch, the store keeps its previous state (no partial commit), and no
count is reported. -/
theorem runBatch_persist_transactional (u : String) (fails : Row → Bool)
    (store rows : List Row) :
    ((∀ r ∈ rows, fails r = false) →
        runBatch false (some u) fails store rows =
          { output := [], store := rows.foldl insertSkip store, contacted := true,
            result := .ok (), inserted := some rows.length }) ∧
      (∀ e, (runBatch false (some u) fails store rows).result = .error (.rowFailed e) →
          e ∈ rows ∧ fails e = true ∧
            (runBatch false (some u) fails store rows).store = store ∧
              (runBatch false (some u) fails store rows).inserted = none) ∧
      (rows.foldl insertSkip store).length ≤ store.length + rows.length := by
  refine ⟨?_, ?_, length_foldl_insertSkip rows store⟩
  · intro h
    simp [runBatch, runPersist, persistGo_ok fails rows store 0 h]
  · intro e he
    cases hgo : persistGo fails rows store 0 with
    | ok p =>
      exfalso
      obtain ⟨tx, n⟩ := p
      simp [runBatch, runPersist, hgo] at he
    | error r =>
      have hmem := persistGo_error fails rows store 0 r hgo
      have hres : runBatch false (some u) fails store rows =
          { output := [], store := store, contacted := true,
            result := .error (.rowFailed r), inserted := none } := by
        simp [runBatch, runPersist, hgo]
      rw [hres] at he
      simp only [Except.error.injEq, LoadError.rowFailed.injEq] at he
      obtain rfl := he
      exact ⟨hmem.1, hmem.2, by simp [hres], by simp [hres]⟩

/-- Witness for C6: one fresh row persists, commits once and reports 1. -/
theorem runBatch_persist_transactional_witness :
    runBatch false (some "db") (fun _ => false) []
        [⟨⟨2023, 1, 1⟩, "solar_meter", "accumulated_solar_energy", 10⟩] =
      { output := [],
        store := [⟨⟨2023, 1, 1⟩, "solar_meter", "accumulated_solar_energy", 10⟩],
        contacted := true, result := .ok (), inserted := some 1 } :=
  (runBatch_persist_transactional "db" (fun _ => false) []
      [⟨⟨2023, 1, 1⟩, "solar_meter", "accumulated_solar_energy", 10⟩]).1
    fun _ _ => rfl

/-- Inserting a row whose key is already present leaves the store as is. -/
theorem insertSkip_of_keyMem {s : List Row} {r : Row}
    (h : ∃ x ∈ s, rowKey x = rowKey r) : insertSkip s r = s := by
  unfold insertSkip
  rw [if_pos]
  rw [List.any_eq_true]
  obtain ⟨x, hx, hk⟩ := h
  exact ⟨x, hx, by simp [hk]⟩

/-- After inserting a row, its key is present. -/
theorem keyMem_insertSkip_self (s : List Row) (r : Row) :
    ∃ x ∈ insertSkip s r, rowKey x = rowKey r := by
  unfold insertSkip
  split_ifs with h
  · rw [List.any_eq_true] at h
    obtain ⟨x, hx, hk⟩ := h
    exact ⟨x, hx, by simpa using hk⟩
  · exact ⟨r, by simp, rfl⟩

/-- Insertion never removes a present key. -/
theorem keyMem_insertSkip_mono {s : List Row} {r : Row} (r' : Row)
    (h : ∃ x ∈ s, rowKey x = rowKey r) :
    ∃ x ∈ insertSkip s r', rowKey x = rowKey r := by
  obtain ⟨x, hx, hk⟩ := h
  unfold insertSkip
  split_ifs
  · exact ⟨x, hx, hk⟩
  · exact ⟨x, List.mem_append_left _ hx, hk⟩

/-- A present key stays present through a whole batch of insertions. -/
theorem keyMem_foldl (rows : List Row) :
    ∀ {s : List Row} {r : Row}, (∃ x ∈ s, rowKey x = rowKey r) →
      ∃ x ∈ rows.foldl insertSkip s, rowKey x = rowKey r := by
  induction rows with
  | nil =>
    intro s r h
    simpa using h
  | cons a l ih =>
    intro s r h
    simp only [List.foldl_cons]
    exact ih (keyMem_insertSkip_mono a h)

/-- After a batch of insertions, every row of the batch has its key in the
store. -/
theorem keyMem_foldl_of_mem (rows : List Row) :
    ∀ (s : List Row), ∀ r ∈ rows,
      ∃ x ∈ rows.foldl insertSkip s, rowKey x = rowKey r := by
  induction rows with
  | nil =>
    intro s r h
    cases h
  | cons a l ih =>
    intro s r hr
    rcases List.mem_cons.mp hr with rfl | hmem
    · simp only [List.foldl_cons]
      exact keyMem_foldl l (keyMem_insertSkip_self s r)
    · simp only [List.foldl_cons]
      exact ih (insertSkip s a) r hmem

/-- A batch all of whose keys are already present does nothing. -/
theorem foldl_insertSkip_noop (rows : List Row) :
    ∀ s : List Row, (∀ r ∈ rows, ∃ x ∈ s, rowKey x = rowKey r) →
      rows.foldl insertSkip s = s := by
  induction rows with
  | nil =>
    intro s _
    rfl
  | cons a l ih =>
    intro s h
    have ha := insertSkip_of_keyMem (h a (List.mem_cons_self a l))
    simp only [List.foldl_cons, ha]
    exact ih s fun r hr => h r (List.mem_cons_of_mem a hr)

/-- C7: persistence is idempotent: the upsert is keyed on (date, source,
measurement) and skips on conflict, never overwriting a pre-existing row,
so running the persist step a second time with the same rows leaves the
destination store (hence its row count) unchanged. -/
theorem persist_idempotent (fails : Row → Bool) (store rows : List Row) :
    (∀ (r : Row) (s : List Row), (∃ x ∈ s, rowKey x = rowKey r) →
        insertSkip s r = s) ∧
      ((∀ r ∈ rows, fails r = false) →
        (runPersist fails (runPersist fails store rows).1 rows).1 =
            (runPersist fails store rows).1 ∧
          (runPersist fails (runPersist fails store rows).1 rows).1.length =
            (runPersist fails store rows).1.length) := by
  constructor
  · exact fun r s h => insertSkip_of_keyMem h
  · intro h
    have h1 : runPersist fails store rows = (rows.foldl insertSkip store, .ok rows.length) := by
      simp [runPersist, persistGo_ok fails rows store 0 h]
    have h2 : runPersist fails (rows.foldl insertSkip store) rows =
        (rows.foldl insertSkip (rows.foldl insertSkip store), .ok rows.length) := by
      simp [runPersist, persistGo_ok fails rows _ 0 h]
    have h3 : rows.foldl insertSkip (rows.foldl insertSkip store) =
        rows.foldl insertSkip store :=
      foldl_insertSkip_noop rows _ fun r hr => keyMem_foldl_of_mem rows store r hr
    simp [h1, h2, h3]

/-- Witness for C7 at a one-row batch over an empty store. -/
theorem persist_idempotent_witness :
    insertSkip [⟨⟨2023, 1, 1⟩, "solar_meter", "accumulated_solar_energy", 10⟩]
        ⟨⟨2023, 1, 1⟩, "solar_meter", "accumulated_solar_energy", 10⟩ =
      [⟨⟨2023, 1, 1⟩, "solar_meter", "accumulated_solar_energy", 10⟩] ∧
    (runPersist (fun _ => false)
        (runPersist (fun _ => false) []
          [⟨⟨2023, 1, 1⟩, "solar_meter", "accumulated_solar_energy", 10⟩]).1
        [⟨⟨2023, 1, 1⟩, "solar_meter", "accumulated_solar_energy", 10⟩]).1 =
      (runPersist (fun _ => false) []
        [⟨⟨2023, 1, 1⟩, "solar_meter", "accumulated_solar_energy", 10⟩]).1 :=
  ⟨(persist_idempotent (fun _ => false) [] []).1
      ⟨⟨2023, 1, 1⟩, "solar_meter", "accumulated_solar_energy", 10⟩
      [⟨⟨2023, 1, 1⟩, "solar_meter", "accumulated_solar_energy", 10⟩]
      ⟨⟨⟨2023, 1, 1⟩, "solar_meter", "accumulated_solar_energy", 10⟩, by simp, rfl⟩,
    ((persist_idempotent (fun _ => false) []
        [⟨⟨2023, 1, 1⟩, "solar_meter", "accumulated_solar_energy", 10⟩]).2
      fun _ _ => rfl).1⟩

/-- C8: the per-file loop is total and non-fatal: the accumulated rows are
the concatenation of the successful files' rows in order, each failing file
contributes exactly one reported error and no rows, and an empty candidate
set yields zero work. -/
theorem processFiles_per_file_errors_nonfatal :
    (∀ files : List (String × Except String (List Row)),
        processFiles files =
          ((files.map fun f =>
              match f.2 with
              | .ok rows => rows
              | .error _ => []).flatten,
            files.filterMap fun f =>
              match f.2 with
              | .ok _ => none
              | .error e => some (f.1, e))) ∧
      processFiles [] = ([], []) := by
  have go : ∀ (files : List (String × Except String (List Row)))
      (a : List Row) (b : List (String × String)),
      files.foldl
          (fun acc f =>
            match f.2 with
            | .ok rows => (acc.1 ++ rows, acc.2)
            | .error e => (acc.1, acc.2 ++ [(f.1, e)]))
          (a, b) =
        (a ++ (files.map fun f =>
            match f.2 with
            | .ok rows => rows
            | .error _ => []).flatten,
          b ++ files.filterMap fun f =>
            match f.2 with
            | .ok _ => none
            | .error e => some (f.1, e)) := by
    intro files
    induction files with
    | nil =>
      intro a b
      simp
    | cons f fs ih =>
      intro a b
      cases hf : f.2 with
      | ok rows => simp [List.foldl_cons, hf, ih, List.append_assoc]
      | error e => simp [List.foldl_cons, hf, ih, List.append_assoc]
  refine ⟨fun files => ?_, rfl⟩
  simpa [processFiles] using go files [] []

/-- C9: dry-run mode renders the tabular report — columns in order date,
source, measurement, value to two decimals, the source/measurement/value
columns at their fixed widths while the date is written unpadded because
chrono's `NaiveDate` display ignores the width flag — returns success, does
not contact the store, and needs no connection string. -/
theorem runBatch_dry_run_report (dbUrl : Option String) (fails : Row → Bool)
    (store rows : List Row) :
    runBatch true dbUrl fails store rows =
      { output := reportLines rows, store := store, contacted := false,
        result := .ok (), inserted := none } ∧
      reportLines rows =
        (padRight 12 "bucket" ++ " " ++ padRight 15 "source" ++ " " ++
            padRight 30 "measurement" ++ " " ++ padLeft 10 "value")
          :: String.mk (List.replicate 70 '-') :: rows.map renderRow ∧
      renderRow ⟨⟨2023, 1, 1⟩, "solar_meter", "accumulated_solar_energy", 10⟩ =
        "2023-01-01 solar_meter     accumulated_solar_energy            10.00" :=
  ⟨rfl, rfl, by decide⟩

/-- The rows of one valid date, spelled as the concatenation of the three
optional singleton rows. -/
theorem deriveRows_eq (date : Date) (p u s : Option ℚ) :
    deriveRows date p u s =
      (match p with
        | some pv => [⟨date, "solar_meter", "accumulated_solar_energy", pv⟩]
        | none => []) ++
        (match p, s with
          | some pv, some sv =>
            [⟨date, "energy_meter", "active_energy_exported", f64sub pv sv⟩]
          | _, _ => []) ++
          (match u, s with
            | some uv, some sv =>
              [⟨date, "energy_meter", "active_energy_imported", f64sub uv sv⟩]
            | _, _ => []) := by
  rcases p with _ | pv <;> rcases u with _ | uv <;> rcases s with _ | sv <;> rfl

/-- Every row derived for a date carries that date as its bucket. -/
theorem mem_deriveRows {date : Date} {p u s : Option ℚ} {r : Row}
    (hr : r ∈ deriveRows date p u s) : r.bucket = date := by
  rw [deriveRows_eq] at hr
  rcases List.mem_append.mp hr with h12 | h3
  · rcases List.mem_append.mp h12 with h1 | h2
    · rcases p with _ | pv
      · cases h1
      · rw [List.mem_singleton] at h1
        rw [h1]
    · rcases p with _ | pv <;> rcases s with _ | sv
      · cases h2
      · cases h2
      · cases h2
      · rw [List.mem_singleton] at h2
        rw [h2]
  · rcases u with _ | uv <;> rcases s with _ | sv
    · cases h3
    · cases h3
    · cases h3
    · rw [List.mem_singleton] at h3
      rw [h3]

/-- Within one date the up-to-three derived rows have pairwise distinct
(source, measurement) keys. -/
theorem deriveRows_pairwise_key (date : Date) (p u s : Option ℚ) :
    (deriveRows date p u s).Pairwise fun a b => rowKey a ≠ rowKey b := by
  rw [deriveRows_eq]
  rcases p with _ | pv <;> rcases u with _ | uv <;> rcases s with _ | sv <;>
    simp [rowKey, List.pairwise_cons, Prod.ext_iff]

/-- A single date yields at most three rows. -/
theorem deriveRows_length_le (date : Date) (p u s : Option ℚ) :
    (deriveRows date p u s).length ≤ 3 := by
  rw [deriveRows_eq]
  rcases p with _ | pv <;> rcases u with _ | uv <;> rcases s with _ | sv <;> simp

/-- An index either contributes nothing (invalid date) or exactly the rows
derived at its date `year/month/(i+1)`. -/
theorem rowsForIndex_cases (y : ℤ) (m : ℕ) (data : HuaweiData) (i : ℕ) :
    rowsForIndex y m data i = [] ∨
      (fromYmdOpt y m (i + 1) = some ⟨y, m, i + 1⟩ ∧
        rowsForIndex y m data i =
          deriveRows ⟨y, m, i + 1⟩ (as_f64 (data.product_power.getD i ""))
            (as_f64 (data.use_power.getD i ""))
            (as_f64 (data.self_use_power.getD i ""))) := by
  unfold rowsForIndex
  cases hD : fromYmdOpt y m (i + 1) with
  | none => exact Or.inl rfl
  | some date =>
    right
    obtain ⟨hd, -⟩ := fromYmdOpt_eq_some hD
    subst hd
    exact ⟨rfl, rfl⟩

/-- Rows of index `i` live on day `i+1` of the file's period, a valid day. -/
theorem mem_rowsForIndex {y : ℤ} {m : ℕ} {data : HuaweiData} {i : ℕ} {r : Row}
    (hr : r ∈ rowsForIndex y m data i) :
    r.bucket = ⟨y, m, i + 1⟩ ∧ 1 ≤ i + 1 ∧ i + 1 ≤ daysInMonth y m := by
  rcases rowsForIndex_cases y m data i with hcase | ⟨hD, hcase⟩
  · rw [hcase] at hr
    cases hr
  · rw [hcase] at hr
    obtain ⟨-, -, -, h1, h2⟩ := fromYmdOpt_eq_some hD
    exact ⟨mem_deriveRows hr, h1, h2⟩

/-- Pairwise distinct keys within one index. -/
theorem rowsForIndex_pairwise_key (y : ℤ) (m : ℕ) (data : HuaweiData) (i : ℕ) :
    (rowsForIndex y m data i).Pairwise fun a b => rowKey a ≠ rowKey b := by
  rcases rowsForIndex_cases y m data i with hcase | ⟨-, hcase⟩ <;> rw [hcase]
  · exact List.Pairwise.nil
  · exact deriveRows_pairwise_key _ _ _ _

/-- At most three rows per index. -/
theorem rowsForIndex_length_le (y : ℤ) (m : ℕ) (data : HuaweiData) (i : ℕ) :
    (rowsForIndex y m data i).length ≤ 3 := by
  rcases rowsForIndex_cases y m data i with hcase | ⟨-, hcase⟩ <;> rw [hcase]
  · simp
  · exact deriveRows_length_le _ _ _ _

/-- Sum bound for a map whose terms vanish away from a single index and are
bounded by 3 there. -/
theorem sum_le_three_of_spike (g : ℕ → ℕ) (i₀ : ℕ) (hb : ∀ i, g i ≤ 3)
    (h0 : ∀ i, i ≠ i₀ → g i = 0) :
    ∀ l : List ℕ, l.Nodup → (l.map g).sum ≤ 3 := by
  intro l
  induction l with
  | nil =>
    intro _
    simp
  | cons a t ih =>
    intro hnd
    rw [List.map_cons, List.sum_cons]
    by_cases ha : a = i₀
    · subst ha
      have ht : (t.map g).sum = 0 := by
        apply List.sum_eq_zero
        intro x hx
        obtain ⟨j, hj, rfl⟩ := List.mem_map.mp hx
        exact h0 j fun hja => (List.nodup_cons.mp hnd).1 (hja ▸ hj)
      have := hb a
      omega
    · have hz : g a = 0 := h0 a ha
      have := ih (List.nodup_cons.mp hnd).2
      omega

/-- C10: the rows of one successfully extracted file have pairwise distinct
(date, source, measurement) keys, their dates are in non-decreasing order,
every date lies in the file's own period with a day valid for that month,
and no date carries more than three rows. -/
theorem extract_rows_invariants (y : ℤ) (m : ℕ) (data : HuaweiData) :
    (extract_rows y m data).Pairwise (fun a b => rowKey a ≠ rowKey b) ∧
      (extract_rows y m data).Pairwise (fun a b => dateLe a.bucket b.bucket) ∧
      (∀ r ∈ extract_rows y m data,
          r.bucket.year = y ∧ r.bucket.month = m ∧ 1 ≤ r.bucket.day ∧
            r.bucket.day ≤ daysInMonth y m) ∧
      ∀ d : Date,
        ((extract_rows y m data).filter fun r => r.bucket == d).length ≤ 3 := by
  refine ⟨?_, ?_, ?_, ?_⟩
  · unfold extract_rows
    refine List.pairwise_flatMap.mpr ⟨fun i _ => rowsForIndex_pairwise_key y m data i, ?_⟩
    refine (List.pairwise_lt_range _).imp ?_
    intro i j hij
    intro a ha b hb hk
    have hA := (mem_rowsForIndex ha).1
    have hB := (mem_rowsForIndex hb).1
    have hbk : a.bucket = b.bucket := congrArg Prod.fst hk
    rw [hA, hB] at hbk
    have hd : i + 1 = j + 1 := congrArg Date.day hbk
    omega
  · unfold extract_rows
    refine List.pairwise_flatMap.mpr ⟨?_, ?_⟩
    · intro i _
      apply List.pairwise_of_forall_mem_list
      intro a ha b hb
      have hA := (mem_rowsForIndex ha).1
      have hB := (mem_rowsForIndex hb).1
      rw [dateLe, hA, hB]
      exact Or.inr ⟨rfl, Or.inr ⟨rfl, le_refl _⟩⟩
    · refine (List.pairwise_lt_range _).imp ?_
      intro i j hij a ha b hb
      have hA := (mem_rowsForIndex ha).1
      have hB := (mem_rowsForIndex hb).1
      rw [dateLe, hA, hB]
      refine Or.inr ⟨rfl, Or.inr ⟨rfl, ?_⟩⟩
      show i + 1 ≤ j + 1
      omega
  · intro r hr
    obtain ⟨i, _, hmem⟩ := List.mem_flatMap.mp hr
    obtain ⟨hb, h1, h2⟩ := mem_rowsForIndex hmem
    rw [hb]
    exact ⟨rfl, rfl, h1, h2⟩
  · intro d
    have hrw : (extract_rows y m data).filter (fun r => r.bucket == d) =
        (List.range (minLen data)).flatMap fun i =>
          (rowsForIndex y m data i).filter fun r => r.bucket == d := by
      unfold extract_rows
      exact List.filter_flatMap _ _ _
    rw [hrw, List.length_flatMap]
    refine sum_le_three_of_spike _ (d.day - 1) ?_ ?_ _ (List.nodup_range _)
    · intro i
      exact le_trans (List.length_filter_le _ _) (rowsForIndex_length_le y m data i)
    · intro i hi0
      have hnil : (rowsForIndex y m data i).filter (fun r => r.bucket == d) = [] := by
        rw [List.filter_eq_nil_iff]
        intro r hr
        have hb := (mem_rowsForIndex hr).1
        rw [hb]
        simp only [beq_iff_eq]
        intro h
        apply hi0
        rw [← h]
        show i = i + 1 - 1
        omega
      show ((rowsForIndex y m data i).filter fun r => r.bucket == d).length = 0
      rw [hnil]
      rfl
